import Mathlib

/-!
# Verification of the pokedex repository

This file embeds the pieces of the `ebrahim5801/pokedex` Go program that the
specification talks about:

* the time-expiring response cache `pokecache.Cache` (its source lives in
  `internal/pokecache`, which is not part of the provided sources, so it is
  modelled from the specification's description of `NewCache`/`Add`/`Get` and
  the reap loop);
* the REPL command handlers `commandMap`, `commandExplore`, `commandCatch`
  from the main package;
* the `cleanInput` helper and the REPL dispatch loop.

Time is modelled as a natural number of clock units (the Go code uses a
monotonic clock; only differences of readings matter).  Byte payloads are
modelled as `List Nat`.  The Go `map[string]cacheEntry` is modelled as an
association list with unique keys, which `Add` maintains by construction.
-/

namespace Pokedex

/-- Modelled from the spec: a cache entry stores the caller's raw payload
(opaque bytes) together with the monotonic-clock timestamp captured at
insertion time (§3 CacheEntry). -/
structure CacheEntry where
  payload : List Nat
  createdAt : Nat
deriving Repr, DecidableEq

/-- Modelled from the spec: the cache owns a mapping from string key to
`CacheEntry`, plus the fixed interval supplied at construction (§3 Cache).
The Go `map` is represented as an association list; the mutex is represented
by the fact that every operation below is an atomic function on this state
(§5: all reads and writes to `entries` are serialized through one lock). -/
structure Cache where
  entries : List (String × CacheEntry)
  interval : Nat
deriving Repr, DecidableEq

/-- Lookup in the entries mapping (the Go `v, ok := c.entries[key]`). -/
def lookupEntry (key : String) : List (String × CacheEntry) → Option CacheEntry
  | [] => none
  | kv :: rest => if kv.1 = key then some kv.2 else lookupEntry key rest

/-- Modelled from the spec: `NewCache(interval)` initializes an empty
`entries` mapping and starts the reaper (§4.1 Construction); the reaper's
ticks are modelled below as explicit `Cache.reap` steps at chosen times. -/
def NewCache (interval : Nat) : Cache :=
  { entries := [], interval := interval }

/-- Modelled from the spec: `Add(key, payload)` inserts or overwrites the
entry for `key` with `{payload, createdAt: now}` under exclusive access
(§4.1 Add).  Overwriting is modelled by removing any previous binding for
`key`, which keeps keys unique exactly as a Go map does. -/
def Cache.Add (c : Cache) (key : String) (payload : List Nat) (now : Nat) : Cache :=
  { c with entries := (key, ⟨payload, now⟩) :: c.entries.filter (fun kv => kv.1 ≠ key) }

/-- Modelled from the spec: `Get(key)` returns `(payload, true)` if present
and `(zero-value, false)` otherwise; it performs no age check (§4.1 Get). -/
def Cache.Get (c : Cache) (key : String) : List Nat × Bool :=
  match lookupEntry key c.entries with
  | some e => (e.payload, true)
  | none => ([], false)

/-- Modelled from the spec: one wake of the reap loop at time `now` deletes
every entry whose `now - createdAt >= interval` and keeps the rest (§4.1
Reap Loop).  `Nat` subtraction truncates at zero, matching the fact that a
monotonic `now` is never earlier than a stored `createdAt`. -/
def Cache.reap (c : Cache) (now : Nat) : Cache :=
  { c with entries := c.entries.filter (fun kv => now - kv.2.createdAt < c.interval) }

/-! ## Basic lookup lemmas -/

theorem lookupEntry_filter_self (key : String) (l : List (String × CacheEntry)) :
    lookupEntry key (l.filter (fun kv => kv.1 ≠ key)) = none := by
  induction l with
  | nil => rfl
  | cons kv rest ih =>
    rw [List.filter_cons]
    simp only [ne_eq, decide_not] at ih ⊢
    by_cases h : kv.1 = key
    · simp [h, ih]
    · simp [h, lookupEntry, ih]

theorem lookupEntry_filter_of_ne (k k' : String) (h : k' ≠ k)
    (l : List (String × CacheEntry)) :
    lookupEntry k (l.filter (fun kv => kv.1 ≠ k')) = lookupEntry k l := by
  induction l with
  | nil => rfl
  | cons kv rest ih =>
    rw [List.filter_cons]
    simp only [ne_eq, decide_not] at ih ⊢
    by_cases hk : kv.1 = k'
    · have hkk : kv.1 ≠ k := by rw [hk]; exact h
      simp [hk, lookupEntry, hkk, ih, h]
    · simp [hk, lookupEntry, ih]

theorem lookupEntry_Add_self (c : Cache) (k : String) (p : List Nat) (t : Nat) :
    lookupEntry k (c.Add k p t).entries = some ⟨p, t⟩ := by
  simp [Cache.Add, lookupEntry]

theorem lookupEntry_Add_ne (c : Cache) (k k' : String) (p : List Nat) (t : Nat)
    (h : k' ≠ k) : lookupEntry k (c.Add k' p t).entries = lookupEntry k c.entries := by
  simp only [Cache.Add, lookupEntry]
  rw [if_neg h]
  exact lookupEntry_filter_of_ne k k' h c.entries

/-- If the first binding for `k` survives a filter, it is still the first
binding for `k` afterwards (filtering preserves the order of entries). -/
theorem lookupEntry_filter_keep (P : String × CacheEntry → Bool) (k : String)
    (l : List (String × CacheEntry)) (e : CacheEntry)
    (hl : lookupEntry k l = some e) (hP : P (k, e) = true) :
    lookupEntry k (l.filter P) = some e := by
  induction l with
  | nil => simp [lookupEntry] at hl
  | cons kv rest ih =>
    rw [List.filter_cons]
    by_cases hk : kv.1 = k
    · simp only [lookupEntry, hk, if_pos] at hl
      have hkv : kv = (k, e) := by
        cases kv with
        | mk a b => cases hl; cases hk; rfl
      rw [hkv, hP]
      simp [lookupEntry]
    · simp only [lookupEntry, hk, if_neg, if_false] at hl
      by_cases hPkv : P kv = true
      · simp [hPkv, lookupEntry, hk, ih hl]
      · simp only [Bool.not_eq_true] at hPkv
        simp [hPkv, ih hl]

/-- If every binding for `k` in the list fails the filter, `k` is absent
after filtering. -/
theorem lookupEntry_filter_drop (P : String × CacheEntry → Bool) (k : String)
    (l : List (String × CacheEntry))
    (h : ∀ kv ∈ l, kv.1 = k → P kv = false) :
    lookupEntry k (l.filter P) = none := by
  induction l with
  | nil => rfl
  | cons kv rest ih =>
    rw [List.filter_cons]
    have ih' := ih (fun kv hkv hk => h kv (List.mem_cons_of_mem _ hkv) hk)
    by_cases hPkv : P kv = true
    · have hk : kv.1 ≠ k := by
        intro hk
        rw [h kv (List.mem_cons_self _ _) hk] at hPkv
        exact Bool.false_ne_true hPkv
      simp [hPkv, lookupEntry, hk, ih']
    · simp only [Bool.not_eq_true] at hPkv
      simp [hPkv, ih']

/-- With unique keys, the binding `lookupEntry` finds is the only binding
for that key in the list. -/
theorem key_binding_unique (l : List (String × CacheEntry))
    (hnd : (l.map Prod.fst).Nodup) (k : String) (e : CacheEntry)
    (hl : lookupEntry k l = some e) :
    ∀ kv ∈ l, kv.1 = k → kv = (k, e) := by
  induction l with
  | nil => intro kv hkv; simp at hkv
  | cons kv0 rest ih =>
    rw [List.map_cons, List.nodup_cons] at hnd
    intro kv hkv hk
    rcases List.mem_cons.mp hkv with h0 | hrest
    · subst h0
      simp only [lookupEntry, hk, if_pos] at hl
      cases kv with
      | mk a b => cases hl; cases hk; rfl
    · by_cases hk0 : kv0.1 = k
      · exfalso
        apply hnd.1
        rw [hk0, ← hk]
        exact List.mem_map_of_mem Prod.fst hrest
      · simp only [lookupEntry, hk0, if_neg, if_false] at hl
        exact ih hnd.2 hl kv hrest hk

/-! ## Reap-level lemmas -/

/-- A freshly added entry that has reached age `interval` by time `r` is
removed by the reap sweep at `r`, and no other binding for its key exists. -/
theorem reap_Add_expired (c : Cache) (k : String) (p : List Nat) (t0 r : Nat)
    (hr : t0 + c.interval ≤ r) :
    ((c.Add k p t0).reap r).Get k = ([], false) := by
  have hnone : lookupEntry k ((c.Add k p t0).reap r).entries = none := by
    simp only [Cache.reap]
    apply lookupEntry_filter_drop
    intro kv hkv hk
    simp only [Cache.Add] at hkv
    rcases List.mem_cons.mp hkv with h0 | hrest
    · subst h0
      simp only [Cache.Add, decide_eq_false_iff_not, Nat.not_lt]
      omega
    · exfalso
      have hne := (List.mem_filter.mp hrest).2
      simp only [ne_eq, decide_not, Bool.not_eq_eq_eq_not, Bool.not_true,
        decide_eq_false_iff_not] at hne
      exact hne hk
  simp [Cache.Get, hnone]

/-- With unique keys, a reap sweep at `now` removes any entry whose age
`now - createdAt` has reached the interval. -/
theorem reap_deletes (c : Cache) (now : Nat) (k : String) (e : CacheEntry)
    (hnd : (c.entries.map Prod.fst).Nodup) (hl : lookupEntry k c.entries = some e)
    (hold : c.interval ≤ now - e.createdAt) :
    lookupEntry k (c.reap now).entries = none := by
  simp only [Cache.reap]
  apply lookupEntry_filter_drop
  intro kv hkv hk
  have hkv' := key_binding_unique c.entries hnd k e hl kv hkv hk
  rw [hkv']
  simp only [decide_eq_false_iff_not, Nat.not_lt]
  exact hold

/-- A reap sweep at `now` keeps any entry still younger than the interval. -/
theorem reap_keeps (c : Cache) (now : Nat) (k : String) (e : CacheEntry)
    (hl : lookupEntry k c.entries = some e)
    (hyoung : now - e.createdAt < c.interval) :
    lookupEntry k (c.reap now).entries = some e := by
  simp only [Cache.reap]
  exact lookupEntry_filter_keep _ k _ e hl (by simpa using hyoung)

/-- A sweep that finds no expired entry leaves the cache unchanged. -/
theorem reap_noop (c : Cache) (now : Nat)
    (h : ∀ kv ∈ c.entries, now - kv.2.createdAt < c.interval) :
    c.reap now = c := by
  have hfilter : c.entries.filter (fun kv => now - kv.2.createdAt < c.interval)
      = c.entries :=
    List.filter_eq_self.mpr (fun kv hkv => by simpa using h kv hkv)
  simp only [Cache.reap]
  rw [hfilter]

/-- With a positive interval `I` and ticks at every multiple of `I`, any
window `[t0 + I, t0 + 2*I]` contains a tick: waiting `2*I` after an `Add`
at `t0` guarantees some tick happens when the entry's age is at least `I`. -/
theorem tick_exists (I t0 : Nat) (hI : 0 < I) :
    ∃ n, t0 + I ≤ n * I ∧ n * I ≤ t0 + 2 * I := by
  refine ⟨t0 / I + 2, ?_⟩
  have hqr : I * (t0 / I) + t0 % I = t0 := Nat.div_add_mod t0 I
  have hr : t0 % I < I := Nat.mod_lt t0 hI
  have hn : (t0 / I + 2) * I = I * (t0 / I) + 2 * I := by ring
  rw [hn]
  omega

/-! ## Serialized operation sequences (the concurrency model)

The spec's mutex serializes every `Get`, every `Add` and every full reap
sweep; an arbitrary concurrent execution is therefore observationally a
sequence of these atomic operations in some order.  `runOps` runs such a
sequence. -/

/-- One serialized cache operation: an `Add`, a `Get`, or a reap sweep. -/
inductive CacheOp where
  | add (key : String) (payload : List Nat) (now : Nat)
  | get (key : String)
  | reap (now : Nat)
deriving Repr, DecidableEq

/-- The state transition of one atomic operation (`Get` does not mutate). -/
def applyOp (c : Cache) : CacheOp → Cache
  | .add k p t => c.Add k p t
  | .get _ => c
  | .reap t => c.reap t

/-- Run a serialized sequence of operations from an initial cache state. -/
def runOps (c : Cache) (ops : List CacheOp) : Cache :=
  ops.foldl applyOp c

theorem keysNodup_Add (c : Cache) (k : String) (p : List Nat) (t : Nat)
    (h : (c.entries.map Prod.fst).Nodup) :
    ((c.Add k p t).entries.map Prod.fst).Nodup := by
  simp only [Cache.Add, List.map_cons, List.nodup_cons]
  refine ⟨?_, List.Sublist.nodup ((List.filter_sublist _).map Prod.fst) h⟩
  intro hmem
  rcases List.mem_map.mp hmem with ⟨kv, hkv, hfst⟩
  have hne := (List.mem_filter.mp hkv).2
  simp only [ne_eq, decide_not, Bool.not_eq_eq_eq_not, Bool.not_true,
    decide_eq_false_iff_not] at hne
  exact hne hfst

theorem keysNodup_reap (c : Cache) (now : Nat)
    (h : (c.entries.map Prod.fst).Nodup) :
    ((c.reap now).entries.map Prod.fst).Nodup :=
  List.Sublist.nodup ((List.filter_sublist _).map Prod.fst) h

theorem keysNodup_runOps (ops : List CacheOp) (c : Cache)
    (h : (c.entries.map Prod.fst).Nodup) :
    ((runOps c ops).entries.map Prod.fst).Nodup := by
  induction ops generalizing c with
  | nil => exact h
  | cons op ops ih =>
    rw [runOps, List.foldl_cons]
    apply ih
    cases op with
    | add k p t => exact keysNodup_Add c k p t h
    | get k => exact h
    | reap t => exact keysNodup_reap c t h

/-! ## Claim theorems for the cache -/

/-- C1: for every key `k` and payload `p`, `Add(k, p)` followed by `Get(k)`,
with no intervening reap tick and no intervening `Add` to `k`, returns
`(p, true)`. -/
theorem claim1_add_then_get (c : Cache) (k : String) (p : List Nat) (t : Nat) :
    (c.Add k p t).Get k = (p, true) := by
  simp [Cache.Get, lookupEntry_Add_self]

/-- C2: expiry.  (i) After `Add(k, p)` at `t0`, a reap sweep at any time
`r ≥ t0 + interval` removes the entry, so `Get(k)` misses.  (ii) More
generally, with unique keys, once an entry's age reaches the interval a
sweep deletes it, so it is never returned after that sweep.  (iii) With
ticks at every multiple of a positive interval `I`, waiting `2*I` after
time `t0` guarantees a tick at which the entry's age is at least `I`. -/
theorem claim2_expiry :
    (∀ (c : Cache) (k : String) (p : List Nat) (t0 r : Nat),
        t0 + c.interval ≤ r → ((c.Add k p t0).reap r).Get k = ([], false))
    ∧ (∀ (c : Cache) (k : String) (e : CacheEntry) (r : Nat),
        (c.entries.map Prod.fst).Nodup → lookupEntry k c.entries = some e →
        e.createdAt + c.interval ≤ r → (c.reap r).Get k = ([], false))
    ∧ (∀ I t0 : Nat, 0 < I → ∃ n, t0 + I ≤ n * I ∧ n * I ≤ t0 + 2 * I) := by
  refine ⟨fun c k p t0 r hr => reap_Add_expired c k p t0 r hr, ?_, tick_exists⟩
  intro c k e r hnd hl hage
  have hnone := reap_deletes c r k e hnd hl (by omega)
  simp [Cache.Get, hnone]

/-- Witness for C2 at concrete inputs: interval 5, `Add` at time 3, reap at
time 8 (age exactly 5), then `Get` misses. -/
theorem claim2_expiry_witness :
    (((NewCache 5).Add "k" [1, 2, 3] 3).reap 8).Get "k" = ([], false) :=
  claim2_expiry.1 (NewCache 5) "k" [1, 2, 3] 3 8 (by decide)

/-- C3: `Get` performs no age check: whenever `k` is bound in the entries
mapping, `Get(k)` returns that entry's payload with `true`, whatever the
entry's age — `Get` does not even consult a clock. -/
theorem claim3_get_ignores_age (c : Cache) (k : String) (e : CacheEntry)
    (h : lookupEntry k c.entries = some e) :
    c.Get k = (e.payload, true) := by
  simp [Cache.Get, h]

/-- Witness for C3: interval 5 and an entry created at time 0; at any
observation time in `[5, 10)` the entry is stale but unreaped, and `Get`
still hits. -/
theorem claim3_get_ignores_age_witness :
    (Cache.mk [("u", CacheEntry.mk [9] 0)] 5).Get "u" = ([9], true) :=
  claim3_get_ignores_age _ "u" (CacheEntry.mk [9] 0) (by decide)

/-- C4: overwrite semantics.  `Add(k, p1)` then `Add(k, p2)` then `Get(k)`
returns `(p2, true)`, and the stored entry's `createdAt` is the time of the
second `Add`. -/
theorem claim4_overwrite (c : Cache) (k : String) (p1 p2 : List Nat)
    (t1 t2 : Nat) :
    ((c.Add k p1 t1).Add k p2 t2).Get k = (p2, true)
    ∧ lookupEntry k ((c.Add k p1 t1).Add k p2 t2).entries
        = some (CacheEntry.mk p2 t2) := by
  refine ⟨?_, lookupEntry_Add_self _ _ _ _⟩
  simp [Cache.Get, lookupEntry_Add_self]

/-- C5: miss on an absent key.  (i) Whenever `k` is unbound, `Get(k)`
returns the zero value and `false` — so never-inserted and reaped keys are
indistinguishable from the return value.  (ii) A fresh cache always misses.
(iii) A key that was added and then reaped yields exactly the same result
as one that was never added. -/
theorem claim5_miss_absent :
    (∀ (c : Cache) (k : String),
        lookupEntry k c.entries = none → c.Get k = ([], false))
    ∧ (∀ (I : Nat) (k : String), (NewCache I).Get k = ([], false))
    ∧ (∀ (I : Nat) (k : String) (p : List Nat) (t0 r : Nat), t0 + I ≤ r →
        (((NewCache I).Add k p t0).reap r).Get k = (NewCache I).Get k) := by
  refine ⟨fun c k h => by simp [Cache.Get, h], fun I k => ?_, fun I k p t0 r hr => ?_⟩
  · simp [Cache.Get, NewCache, lookupEntry]
  · rw [reap_Add_expired (NewCache I) k p t0 r hr]
    simp [Cache.Get, NewCache, lookupEntry]

/-- Witness for C5: a `Get` on a key that is not bound misses. -/
theorem claim5_miss_absent_witness :
    (Cache.mk [("a", CacheEntry.mk [1] 0)] 5).Get "zzz" = ([], false) :=
  claim5_miss_absent.1 _ "zzz" (by decide)

/-- C6: each reap sweep deletes exactly the entries of age at least
`interval`.  (i) With unique keys, any bound entry of age `≥ interval` is
gone after the sweep.  (ii) Any bound entry of age `< interval` survives
unchanged.  (iii) A sweep finding no expired entry is a no-op.  (iv) In
particular a sweep over an empty cache is a no-op — the reap loop is a
total function with no failure path. -/
theorem claim6_reap_exact :
    (∀ (c : Cache) (now : Nat) (k : String) (e : CacheEntry),
        (c.entries.map Prod.fst).Nodup → lookupEntry k c.entries = some e →
        c.interval ≤ now - e.createdAt →
        lookupEntry k (c.reap now).entries = none)
    ∧ (∀ (c : Cache) (now : Nat) (k : String) (e : CacheEntry),
        lookupEntry k c.entries = some e → now - e.createdAt < c.interval →
        lookupEntry k (c.reap now).entries = some e)
    ∧ (∀ (c : Cache) (now : Nat),
        (∀ kv ∈ c.entries, now - kv.2.createdAt < c.interval) → c.reap now = c)
    ∧ (∀ (I now : Nat), (NewCache I).reap now = NewCache I) :=
  ⟨reap_deletes, reap_keeps, reap_noop, fun _ _ => rfl⟩

/-- Witness for C6: an entry of age exactly the interval is deleted by the
sweep. -/
theorem claim6_reap_exact_witness :
    lookupEntry "k" ((Cache.mk [("k", CacheEntry.mk [1] 0)] 5).reap 5).entries
      = none :=
  claim6_reap_exact.1 _ 5 "k" (CacheEntry.mk [1] 0) (by decide) (by decide)
    (by decide)

/-- C7: the mutex serializes every `Get`, `Add` and reap sweep, so any
concurrent execution is a sequence of atomic operations.  (i) Running any
such sequence preserves key uniqueness of the mapping — no entry is ever
duplicated or lost beyond what `Add` overwrite and reap expiry do.
(ii) An `Add` to a different key leaves `Get(k)` unchanged, so concurrent
callers on distinct keys do not interfere.  (iii) A `Get` never mutates
the state. -/
theorem claim7_serialized_ops :
    (∀ (ops : List CacheOp) (c : Cache), (c.entries.map Prod.fst).Nodup →
        ((runOps c ops).entries.map Prod.fst).Nodup)
    ∧ (∀ (c : Cache) (k k' : String) (p : List Nat) (t : Nat), k' ≠ k →
        (c.Add k' p t).Get k = c.Get k)
    ∧ (∀ (c : Cache) (k : String), applyOp c (CacheOp.get k) = c) := by
  refine ⟨keysNodup_runOps, fun c k k' p t h => ?_, fun c k => rfl⟩
  simp [Cache.Get, lookupEntry_Add_ne c k k' p t h]

/-- Witness for C7: a concrete serialized history of adds, a reap and a get
keeps the mapping's keys unique. -/
theorem claim7_serialized_ops_witness :
    ((runOps (NewCache 5) [CacheOp.add "a" [1] 0, CacheOp.add "b" [2] 1,
        CacheOp.reap 6, CacheOp.get "a"]).entries.map Prod.fst).Nodup :=
  claim7_serialized_ops.1 _ (NewCache 5) (by decide)

/-! ## `cleanInput` (src/repl.go)

Strings are modelled as lists of characters.  `strings.Fields` splits the
input at maximal runs of Unicode white space; `isSpaceGo` models Go's
`unicode.IsSpace` on the Latin-1 range, which covers every character the
REPL realistically reads. -/

/-- Go's `unicode.IsSpace` restricted to the Latin-1 range:
`'\t'`, `'\n'`, vertical tab, form feed, `'\r'`, `' '`, NEL (U+0085) and
NBSP (U+00A0). -/
def isSpaceGo (ch : Char) : Bool :=
  ch == ' ' || ch == '\t' || ch == '\n' || ch == '\r'
    || ch == Char.ofNat 11 || ch == Char.ofNat 12
    || ch == Char.ofNat 0x85 || ch == Char.ofNat 0xA0

/-- Accumulator pass of `strings.Fields`: collect the current word in `acc`
(reversed) and emit it when white space or the end of the input is hit. -/
def fieldsAux (acc : List Char) : List Char → List (List Char)
  | [] => if acc = [] then [] else [acc.reverse]
  | ch :: rest =>
    if isSpaceGo ch then
      if acc = [] then fieldsAux [] rest
      else acc.reverse :: fieldsAux [] rest
    else fieldsAux (ch :: acc) rest

/-- `strings.Fields`: the maximal white-space-free substrings of the input,
in order. -/
def fields (cs : List Char) : List (List Char) :=
  fieldsAux [] cs

/-- `cleanInput` from src/repl.go: `strings.Fields` of the text, then each
word mapped through `strings.ToLower` (per-character lowercasing, modelled
on ASCII). -/
def cleanInput (cs : List Char) : List (List Char) :=
  (fields cs).map (List.map Char.toLower)

/-- The REPL loop body of `main` (src/unnamed/part_000, lines 118-139)
after reading one line: clean the input; on an empty word list, dispatch
nothing (`continue`); otherwise dispatch the first word as the command name
with the second word, if any, as its argument. -/
def replDispatch (line : List Char) : Option (List Char × List Char) :=
  match cleanInput line with
  | [] => none
  | cmd :: rest =>
    some (cmd, match rest with
      | [] => []
      | arg :: _ => arg)

/-- The claim's description of `cleanInput`, stated independently of the
accumulator pass: the whitespace-separated words of the input are the
maximal runs of non-whitespace characters, in their original order. -/
def specWords (cs : List Char) : List (List Char) :=
  match h : cs.dropWhile isSpaceGo with
  | [] => []
  | c :: rest =>
    (c :: rest.takeWhile (fun x => !isSpaceGo x))
      :: specWords (rest.dropWhile (fun x => !isSpaceGo x))
termination_by cs.length
decreasing_by
  have h1 : (cs.dropWhile isSpaceGo).length ≤ cs.length :=
    (List.dropWhile_sublist _).length_le
  rw [h] at h1
  have h2 : (rest.dropWhile (fun x => !isSpaceGo x)).length ≤ rest.length :=
    (List.dropWhile_sublist _).length_le
  simp only [List.length_cons] at h1
  omega

theorem fieldsAux_space_cons (c : Char) (cs : List Char)
    (h : isSpaceGo c = true) : fieldsAux [] (c :: cs) = fieldsAux [] cs := by
  simp [fieldsAux, h]

theorem fieldsAux_dropWhile_space (cs : List Char) :
    fieldsAux [] cs = fieldsAux [] (cs.dropWhile isSpaceGo) := by
  induction cs with
  | nil => rfl
  | cons ch rest ih =>
    by_cases h : isSpaceGo ch = true
    · rw [fieldsAux_space_cons ch rest h, List.dropWhile_cons_of_pos h, ih]
    · rw [List.dropWhile_cons_of_neg h]

theorem fieldsAux_nonempty_acc (cs : List Char) :
    ∀ acc : List Char, acc ≠ [] →
      fieldsAux acc cs
        = (acc.reverse ++ cs.takeWhile (fun x => !isSpaceGo x))
          :: fieldsAux [] (cs.dropWhile (fun x => !isSpaceGo x)) := by
  induction cs with
  | nil =>
    intro acc hacc
    simp [fieldsAux, hacc]
  | cons ch rest ih =>
    intro acc hacc
    by_cases h : isSpaceGo ch = true
    · simp [fieldsAux, List.takeWhile_cons, List.dropWhile_cons, h, hacc]
    · simp only [Bool.not_eq_true] at h
      simp only [List.takeWhile_cons, List.dropWhile_cons, h, Bool.not_false,
        if_true]
      have hstep : fieldsAux acc (ch :: rest) = fieldsAux (ch :: acc) rest := by
        simp [fieldsAux, h]
      rw [hstep, ih (ch :: acc) (by simp)]
      simp

theorem head_dropWhile_false (p : Char → Bool) (cs : List Char)
    (c : Char) (rest : List Char) (h : cs.dropWhile p = c :: rest) :
    p c = false := by
  induction cs with
  | nil => simp [List.dropWhile] at h
  | cons ch rest' ih =>
    by_cases hp : p ch = true
    · rw [List.dropWhile_cons_of_pos hp] at h
      exact ih h
    · rw [List.dropWhile_cons_of_neg hp] at h
      cases h
      simpa using hp

theorem fields_eq_specWords_aux :
    ∀ (n : Nat) (cs : List Char), cs.length ≤ n → fields cs = specWords cs := by
  intro n
  induction n with
  | zero =>
    intro cs hcs
    have : cs = [] := List.length_eq_zero.mp (Nat.le_zero.mp hcs)
    subst this
    rw [specWords]
    rfl
  | succ n ih =>
    intro cs hcs
    rw [fields, fieldsAux_dropWhile_space, specWords]
    cases h : cs.dropWhile isSpaceGo with
    | nil => rfl
    | cons c rest =>
      have hc : isSpaceGo c = false := head_dropWhile_false isSpaceGo cs c rest h
      have hstep : fieldsAux [] (c :: rest) = fieldsAux [c] rest := by
        simp [fieldsAux, hc]
      rw [hstep, fieldsAux_nonempty_acc rest [c] (by simp)]
      have hlen : (rest.dropWhile (fun x => !isSpaceGo x)).length ≤ n := by
        have h1 : (cs.dropWhile isSpaceGo).length ≤ cs.length :=
          (List.dropWhile_sublist _).length_le
        rw [h] at h1
        have h2 : (rest.dropWhile (fun x => !isSpaceGo x)).length ≤ rest.length :=
          (List.dropWhile_sublist _).length_le
        simp only [List.length_cons] at h1
        omega
      rw [← fields, ih _ hlen]
      simp

/-- `fields` (from the source) computes exactly the claim's notion of
whitespace-separated words. -/
theorem fields_eq_specWords (cs : List Char) : fields cs = specWords cs :=
  fields_eq_specWords_aux cs.length cs (Nat.le_refl _)

theorem fields_all_space (cs : List Char) (h : cs.all isSpaceGo) :
    fields cs = [] := by
  rw [fields, fieldsAux_dropWhile_space]
  have : cs.dropWhile isSpaceGo = [] :=
    List.dropWhile_eq_nil_iff.mpr (fun x hx => List.all_eq_true.mp h x hx)
  rw [this]
  rfl

/-! ## Domain structs and REPL command handlers (src/unnamed/part_000)

`http.Get` followed by `io.ReadAll` is modelled by an oracle of type
`String → Option (Nat × Option (List Nat))`: `none` is a transport error
from `http.Get`, `some (status, none)` is a read error from `io.ReadAll`,
and `some (status, some body)` is a fully read response.  `json.Unmarshal`
into each target struct is modelled by a decoder oracle returning `none`
on a decode error.  `rand.Intn(100)` is modelled by a `draw` parameter
(theorems assume `draw < 100` where the claim needs it). -/

structure StatName where
  Name : String
deriving Repr, DecidableEq

structure PokemonStat where
  BaseStat : Int
  Stat : StatName
deriving Repr, DecidableEq

structure TypeName where
  Name : String
deriving Repr, DecidableEq

structure PokemonType where
  type : TypeName
deriving Repr, DecidableEq

structure Pokemon where
  Name : String
  Experience : Int
  Height : Int
  Weight : Int
  Stats : List PokemonStat
  Types : List PokemonType
deriving Repr, DecidableEq

structure location where
  Name : String
  URL : String
deriving Repr, DecidableEq

structure results where
  Count : Int
  Next : String
  Previous : String
  Results : List location
deriving Repr, DecidableEq

structure PokemonEncounters where
  Pokemon : Pokemon
deriving Repr, DecidableEq

structure locationAreaResult where
  PokemonEncounters : List PokemonEncounters
deriving Repr, DecidableEq

/-- The REPL's shared state (the `config` struct). -/
structure config where
  next : String
  previous : String
  cache : Cache
  pokedex : List (String × Pokemon)
deriving Repr, DecidableEq

/-- Go map assignment `c.pokedex[name] = pokemon`. -/
def pokedexInsert (name : String) (p : Pokemon)
    (d : List (String × Pokemon)) : List (String × Pokemon) :=
  (name, p) :: d.filter (fun kv => kv.1 ≠ name)

/-- The errors a command handler can return (the message text is not
load-bearing, so errors are an enumeration). -/
inductive CmdErr where
  | lastPage
  | fetchFailed
  | readFailed
  | badStatus (code : Nat)
  | unmarshalFailed
  | usage
deriving Repr, DecidableEq

/-- Outcome of a handler: the new state, the returned error if any, and
whether an HTTP request was issued. -/
structure HandlerResult where
  cfg : config
  err : Option CmdErr
  fetched : Bool
deriving Repr, DecidableEq

/-- Outcome of `commandCatch`, additionally recording the decoded pokemon
(the handler's local `pokemon` variable) when the lookup-or-fetch phase
succeeded. -/
structure CatchResult where
  cfg : config
  err : Option CmdErr
  fetched : Bool
  pokemonFound : Option Pokemon
deriving Repr, DecidableEq

/-- `commandMap`: on a cache hit for `c.next`, decode and page forward; on
a miss, fetch, then on success (`status ≤ 299`) `Add` the body before
decoding.  Mirrors src/unnamed/part_000 lines 157-202. -/
def commandMap (http : String → Option (Nat × Option (List Nat)))
    (decResults : List Nat → Option results) (now : Nat)
    (c : config) : HandlerResult :=
  if c.next = "" then ⟨c, some .lastPage, false⟩
  else
    match c.cache.Get c.next with
    | (data, true) =>
      match decResults data with
      | none => ⟨c, some .unmarshalFailed, false⟩
      | some res =>
        ⟨{ c with next := res.Next, previous := res.Previous }, none, false⟩
    | (_, false) =>
      match http c.next with
      | none => ⟨c, some .fetchFailed, true⟩
      | some (_, none) => ⟨c, some .readFailed, true⟩
      | some (status, some body) =>
        if 299 < status then ⟨c, some (.badStatus status), true⟩
        else
          let c' := { c with cache := c.cache.Add c.next body now }
          match decResults body with
          | none => ⟨c', some .unmarshalFailed, true⟩
          | some res =>
            ⟨{ c' with next := res.Next, previous := res.Previous }, none, true⟩

/-- The URL prefix used by `commandExplore`. -/
def locationAreaURL : String := "https://pokeapi.co/api/v2/location-area/"

/-- `commandExplore`: requires a location argument; cache hit decodes and
prints; miss fetches and `Add`s only on success.  Mirrors
src/unnamed/part_000 lines 204-246. -/
def commandExplore (http : String → Option (Nat × Option (List Nat)))
    (decArea : List Nat → Option locationAreaResult) (now : Nat)
    (c : config) (loc : String) : HandlerResult :=
  if loc = "" then ⟨c, some .usage, false⟩
  else
    let url := locationAreaURL ++ loc
    match c.cache.Get url with
    | (data, true) =>
      match decArea data with
      | none => ⟨c, some .unmarshalFailed, false⟩
      | some _ => ⟨c, none, false⟩
    | (_, false) =>
      match http url with
      | none => ⟨c, some .fetchFailed, true⟩
      | some (_, none) => ⟨c, some .readFailed, true⟩
      | some (status, some body) =>
        if 299 < status then ⟨c, some (.badStatus status), true⟩
        else
          let c' := { c with cache := c.cache.Add url body now }
          match decArea body with
          | none => ⟨c', some .unmarshalFailed, true⟩
          | some _ => ⟨c', none, true⟩

/-- The URL prefix used by `commandCatch`. -/
def pokemonURL : String := "https://pokeapi.co/api/v2/pokemon/"

/-- `commandCatch`: requires a name; obtains the pokemon either from the
cache or by fetching (with `Add` only after `status ≤ 299`); then stores
it in the pokedex exactly when `rand.Intn(100) > pokemon.Experience`.
Mirrors src/unnamed/part_000 lines 248-289. -/
def commandCatch (http : String → Option (Nat × Option (List Nat)))
    (decPokemon : List Nat → Option Pokemon) (now : Nat) (draw : Nat)
    (c : config) (name : String) : CatchResult :=
  if name = "" then ⟨c, some .usage, false, none⟩
  else
    let url := pokemonURL ++ name
    let phase : config × Bool × Except CmdErr Pokemon :=
      match c.cache.Get url with
      | (data, true) =>
        match decPokemon data with
        | none => (c, false, .error .unmarshalFailed)
        | some p => (c, false, .ok p)
      | (_, false) =>
        match http url with
        | none => (c, true, .error .fetchFailed)
        | some (_, none) => (c, true, .error .readFailed)
        | some (status, some body) =>
          if 299 < status then (c, true, .error (.badStatus status))
          else
            let c' := { c with cache := c.cache.Add url body now }
            match decPokemon body with
            | none => (c', true, .error .unmarshalFailed)
            | some p => (c', true, .ok p)
    match phase with
    | (c1, fetched, .error e) => ⟨c1, some e, fetched, none⟩
    | (c1, fetched, .ok pokemon) =>
      if pokemon.Experience < (draw : Int) then
        ⟨{ c1 with pokedex := pokedexInsert name pokemon c1.pokedex },
          none, fetched, some pokemon⟩
      else ⟨c1, none, fetched, some pokemon⟩

/-! ## Claim theorems for the REPL layer -/

/-- C9: `cleanInput` returns the whitespace-separated words of its input,
each lowercased, in order (proved against `specWords`, the independent
statement of that description); an all-whitespace input yields `[]`, and
the REPL loop then dispatches nothing for that line. -/
theorem claim9_cleanInput :
    (∀ cs : List Char,
        cleanInput cs = (specWords cs).map (List.map Char.toLower))
    ∧ (∀ cs : List Char, cs.all isSpaceGo = true → cleanInput cs = [])
    ∧ (∀ cs : List Char, cs.all isSpaceGo = true → replDispatch cs = none) := by
  have hblank : ∀ cs : List Char, cs.all isSpaceGo = true → cleanInput cs = [] :=
    fun cs h => by rw [cleanInput, fields_all_space cs h]; rfl
  refine ⟨fun cs => by rw [cleanInput, fields_eq_specWords],
    hblank, fun cs h => ?_⟩
  rw [replDispatch, hblank cs h]

/-- Witness for C9: a line of blanks produces no dispatch. -/
theorem claim9_cleanInput_witness :
    replDispatch [' ', ' ', '\t'] = none :=
  claim9_cleanInput.2.2 [' ', ' ', '\t'] (by decide)

/-- C8: each data-fetching handler consults the cache first and issues the
HTTP request only on a cache miss (`fetched = true → Get missed`), and
mutates the cache only by `Add`ing the request URL's response body after a
fetch with `status ≤ 299` — never after a failed one. -/
theorem claim8_cache_discipline :
    (∀ http decResults now c,
        ((commandMap http decResults now c).fetched = true →
          (c.cache.Get c.next).2 = false)
        ∧ ((commandMap http decResults now c).cfg.cache ≠ c.cache →
          ∃ status body, http c.next = some (status, some body)
            ∧ status ≤ 299
            ∧ (commandMap http decResults now c).cfg.cache
              = c.cache.Add c.next body now))
    ∧ (∀ http decArea now c loc,
        ((commandExplore http decArea now c loc).fetched = true →
          (c.cache.Get (locationAreaURL ++ loc)).2 = false)
        ∧ ((commandExplore http decArea now c loc).cfg.cache ≠ c.cache →
          ∃ status body, http (locationAreaURL ++ loc)
              = some (status, some body)
            ∧ status ≤ 299
            ∧ (commandExplore http decArea now c loc).cfg.cache
              = c.cache.Add (locationAreaURL ++ loc) body now))
    ∧ (∀ http decPokemon now draw c name,
        ((commandCatch http decPokemon now draw c name).fetched = true →
          (c.cache.Get (pokemonURL ++ name)).2 = false)
        ∧ ((commandCatch http decPokemon now draw c name).cfg.cache ≠ c.cache →
          ∃ status body, http (pokemonURL ++ name)
              = some (status, some body)
            ∧ status ≤ 299
            ∧ (commandCatch http decPokemon now draw c name).cfg.cache
              = c.cache.Add (pokemonURL ++ name) body now)) := by
  refine ⟨fun http dec now c => ?_, fun http dec now c loc => ?_,
    fun http dec now draw c name => ?_⟩
  · by_cases hn : c.next = ""
    · constructor
      · intro h; simp [commandMap, hn] at h
      · intro h; exfalso; apply h; simp [commandMap, hn]
    · rcases hGet : c.cache.Get c.next with ⟨data, found⟩
      cases found
      · constructor
        · intro _; simp [hGet]
        · intro hch
          rcases hH : http c.next with _ | ⟨status, body?⟩
          · exfalso; apply hch; simp [commandMap, hn, hGet, hH]
          · rcases body? with _ | body
            · exfalso; apply hch; simp [commandMap, hn, hGet, hH]
            · by_cases hs : 299 < status
              · exfalso; apply hch; simp [commandMap, hn, hGet, hH, hs]
              · refine ⟨status, body, rfl, by omega, ?_⟩
                rcases hdec : dec body with _ | res
                · simp [commandMap, hn, hGet, hH, hs, hdec]
                · simp [commandMap, hn, hGet, hH, hs, hdec]
      · constructor
        · intro h
          exfalso
          rcases hdec : dec data with _ | res
          · simp [commandMap, hn, hGet, hdec] at h
          · simp [commandMap, hn, hGet, hdec] at h
        · intro hch
          exfalso
          apply hch
          rcases hdec : dec data with _ | res
          · simp [commandMap, hn, hGet, hdec]
          · simp [commandMap, hn, hGet, hdec]
  · by_cases hl : loc = ""
    · constructor
      · intro h; simp [commandExplore, hl] at h
      · intro h; exfalso; apply h; simp [commandExplore, hl]
    · rcases hGet : c.cache.Get (locationAreaURL ++ loc) with ⟨data, found⟩
      cases found
      · constructor
        · intro _; simp [hGet]
        · intro hch
          rcases hH : http (locationAreaURL ++ loc) with _ | ⟨status, body?⟩
          · exfalso; apply hch; simp [commandExplore, hl, hGet, hH]
          · rcases body? with _ | body
            · exfalso; apply hch; simp [commandExplore, hl, hGet, hH]
            · by_cases hs : 299 < status
              · exfalso; apply hch; simp [commandExplore, hl, hGet, hH, hs]
              · refine ⟨status, body, rfl, by omega, ?_⟩
                rcases hdec : dec body with _ | res
                · simp [commandExplore, hl, hGet, hH, hs, hdec]
                · simp [commandExplore, hl, hGet, hH, hs, hdec]
      · constructor
        · intro h
          exfalso
          rcases hdec : dec data with _ | res
          · simp [commandExplore, hl, hGet, hdec] at h
          · simp [commandExplore, hl, hGet, hdec] at h
        · intro hch
          exfalso
          apply hch
          rcases hdec : dec data with _ | res
          · simp [commandExplore, hl, hGet, hdec]
          · simp [commandExplore, hl, hGet, hdec]
  · by_cases hm : name = ""
    · constructor
      · intro h; simp [commandCatch, hm] at h
      · intro h; exfalso; apply h; simp [commandCatch, hm]
    · rcases hGet : c.cache.Get (pokemonURL ++ name) with ⟨data, found⟩
      cases found
      · constructor
        · intro _; simp [hGet]
        · intro hch
          rcases hH : http (pokemonURL ++ name) with _ | ⟨status, body?⟩
          · exfalso; apply hch; simp [commandCatch, hm, hGet, hH]
          · rcases body? with _ | body
            · exfalso; apply hch; simp [commandCatch, hm, hGet, hH]
            · by_cases hs : 299 < status
              · exfalso; apply hch; simp [commandCatch, hm, hGet, hH, hs]
              · refine ⟨status, body, rfl, by omega, ?_⟩
                rcases hdec : dec body with _ | pk
                · simp [commandCatch, hm, hGet, hH, hs, hdec]
                · by_cases hdraw : pk.Experience < (draw : Int)
                  · simp [commandCatch, hm, hGet, hH, hs, hdec, hdraw]
                  · simp [commandCatch, hm, hGet, hH, hs, hdec, hdraw]
      · constructor
        · intro h
          exfalso
          rcases hdec : dec data with _ | pk
          · simp [commandCatch, hm, hGet, hdec] at h
          · by_cases hdraw : pk.Experience < (draw : Int)
            · simp [commandCatch, hm, hGet, hdec, hdraw] at h
            · simp [commandCatch, hm, hGet, hdec, hdraw] at h
        · intro hch
          exfalso
          apply hch
          rcases hdec : dec data with _ | pk
          · simp [commandCatch, hm, hGet, hdec]
          · by_cases hdraw : pk.Experience < (draw : Int)
            · simp [commandCatch, hm, hGet, hdec, hdraw]
            · simp [commandCatch, hm, hGet, hdec, hdraw]

/-- Witness for C8: on a fresh cache (a miss), `commandMap` issues the
fetch, so the cache lookup it performed was indeed a miss. -/
theorem claim8_cache_discipline_witness :
    ((config.mk "u" "" (NewCache 5) []).cache.Get
      (config.mk "u" "" (NewCache 5) []).next).2 = false :=
  (claim8_cache_discipline.1 (fun _ => some (200, some [1])) (fun _ => none) 0
    (config.mk "u" "" (NewCache 5) [])).1 (by decide)

/-- C10: properties of `commandCatch` with `draw = rand.Intn(100) < 100`.
(i) On any error return the pokedex is unchanged.  (ii) On success the
decoded pokemon is stored exactly when `draw > Experience`, keyed by the
user-supplied name, and otherwise nothing is stored.  (iii) A pokemon with
`Experience ≥ 99` is never added, since `draw ≤ 99`. -/
theorem claim10_catch_pokedex (http : String → Option (Nat × Option (List Nat)))
    (decPokemon : List Nat → Option Pokemon) (now draw : Nat)
    (c : config) (name : String) (hdraw : draw < 100) :
    ((commandCatch http decPokemon now draw c name).err ≠ none →
      (commandCatch http decPokemon now draw c name).cfg.pokedex = c.pokedex)
    ∧ ((commandCatch http decPokemon now draw c name).err = none →
      ∃ pk, (commandCatch http decPokemon now draw c name).pokemonFound = some pk
        ∧ (commandCatch http decPokemon now draw c name).cfg.pokedex
          = if pk.Experience < (draw : Int)
            then pokedexInsert name pk c.pokedex else c.pokedex)
    ∧ (∀ pk,
      (commandCatch http decPokemon now draw c name).pokemonFound = some pk →
      (99 : Int) ≤ pk.Experience →
      (commandCatch http decPokemon now draw c name).cfg.pokedex = c.pokedex) := by
  by_cases hm : name = ""
  · refine ⟨fun _ => by simp [commandCatch, hm], fun h => ?_, fun pk hpk => ?_⟩
    · simp [commandCatch, hm] at h
    · simp [commandCatch, hm] at hpk
  · rcases hGet : c.cache.Get (pokemonURL ++ name) with ⟨data, found⟩
    cases found
    · rcases hH : http (pokemonURL ++ name) with _ | ⟨status, body?⟩
      · refine ⟨fun _ => by simp [commandCatch, hm, hGet, hH], fun h => ?_,
          fun pk hpk => ?_⟩
        · simp [commandCatch, hm, hGet, hH] at h
        · simp [commandCatch, hm, hGet, hH] at hpk
      · rcases body? with _ | body
        · refine ⟨fun _ => by simp [commandCatch, hm, hGet, hH], fun h => ?_,
            fun pk hpk => ?_⟩
          · simp [commandCatch, hm, hGet, hH] at h
          · simp [commandCatch, hm, hGet, hH] at hpk
        · by_cases hs : 299 < status
          · refine ⟨fun _ => by simp [commandCatch, hm, hGet, hH, hs],
              fun h => ?_, fun pk hpk => ?_⟩
            · simp [commandCatch, hm, hGet, hH, hs] at h
            · simp [commandCatch, hm, hGet, hH, hs] at hpk
          · rcases hdec : decPokemon body with _ | pk0
            · refine ⟨fun _ => by simp [commandCatch, hm, hGet, hH, hs, hdec],
                fun h => ?_, fun pk hpk => ?_⟩
              · simp [commandCatch, hm, hGet, hH, hs, hdec] at h
              · simp [commandCatch, hm, hGet, hH, hs, hdec] at hpk
            · by_cases hd : pk0.Experience < (draw : Int)
              · refine ⟨fun h => ?_, fun _ => ⟨pk0, ?_, ?_⟩, fun pk hpk hexp => ?_⟩
                · exfalso; apply h
                  simp [commandCatch, hm, hGet, hH, hs, hdec, hd]
                · simp [commandCatch, hm, hGet, hH, hs, hdec, hd]
                · simp [commandCatch, hm, hGet, hH, hs, hdec, hd]
                · exfalso
                  simp [commandCatch, hm, hGet, hH, hs, hdec, hd] at hpk
                  subst hpk
                  omega
              · refine ⟨fun h => ?_, fun _ => ⟨pk0, ?_, ?_⟩, fun pk hpk hexp => ?_⟩
                · exfalso; apply h
                  simp [commandCatch, hm, hGet, hH, hs, hdec, hd]
                · simp [commandCatch, hm, hGet, hH, hs, hdec, hd]
                · simp [commandCatch, hm, hGet, hH, hs, hdec, hd]
                · simp [commandCatch, hm, hGet, hH, hs, hdec, hd]
    · rcases hdec : decPokemon data with _ | pk0
      · refine ⟨fun _ => by simp [commandCatch, hm, hGet, hdec], fun h => ?_,
          fun pk hpk => ?_⟩
        · simp [commandCatch, hm, hGet, hdec] at h
        · simp [commandCatch, hm, hGet, hdec] at hpk
      · by_cases hd : pk0.Experience < (draw : Int)
        · refine ⟨fun h => ?_, fun _ => ⟨pk0, ?_, ?_⟩, fun pk hpk hexp => ?_⟩
          · exfalso; apply h
            simp [commandCatch, hm, hGet, hdec, hd]
          · simp [commandCatch, hm, hGet, hdec, hd]
          · simp [commandCatch, hm, hGet, hdec, hd]
          · exfalso
            simp [commandCatch, hm, hGet, hdec, hd] at hpk
            subst hpk
            omega
        · refine ⟨fun h => ?_, fun _ => ⟨pk0, ?_, ?_⟩, fun pk hpk hexp => ?_⟩
          · exfalso; apply h
            simp [commandCatch, hm, hGet, hdec, hd]
          · simp [commandCatch, hm, hGet, hdec, hd]
          · simp [commandCatch, hm, hGet, hdec, hd]
          · simp [commandCatch, hm, hGet, hdec, hd]

/-- Witness for C10: a successful catch attempt against a pokemon of base
experience 99 with `draw = 50` leaves the pokedex empty — such a pokemon is
never added. -/
theorem claim10_catch_pokedex_witness :
    (commandCatch (fun _ => some (200, some [1]))
      (fun _ => some (Pokemon.mk "pidgey" 99 1 1 [] [])) 0 50
      (config.mk "" "" (NewCache 5) []) "pidgey").cfg.pokedex = [] :=
  (claim10_catch_pokedex (fun _ => some (200, some [1]))
    (fun _ => some (Pokemon.mk "pidgey" 99 1 1 [] [])) 0 50
    (config.mk "" "" (NewCache 5) []) "pidgey" (by decide)).2.2
    (Pokemon.mk "pidgey" 99 1 1 [] []) (by decide) (by decide)

end Pokedex
